import Mathlib

/-!
Verification of the task-extraction and crew-runner logic of the
`crewai-intelligent-builder` repository.

The Python sources are shallowly embedded over `List Char` (Python `str`):

* `src/task_designer_agent.py`:
  - the JSON-extraction stage of `generate_custom_tasks` (a `re.search(r'\[.*\]', s, re.DOTALL)`
    match followed by `json.loads`),
  - `_parse_text_tasks` (the line-oriented fallback),
  - `_generate_fallback_tasks` (the fixed three-task fallback),
  - `create_project_guide` (pure Markdown rendering).
* `src/intelligent_crew_runner.py`:
  - the sequential execution loop of `run_intelligent_crew` (records, delays,
    rate-limit cooldown), with the external task execution abstracted as an
    oracle `Nat → ExecOutcome` (1-based task index to outcome), wall-clock
    durations and timestamps abstracted as strings supplied by that oracle
    (the `{x:.1f}` float rendering of durations is below the abstraction:
    the oracle supplies the already-rendered digits),
  - the result-compilation phase (`combine_intelligent_results` and the
    `results['combined']` / `results['analysis']` assignments).

Python dicts are modeled as association lists with Python's assignment
semantics (update in place if the key exists, else append), `json.loads` as a
recursive-descent parser for RFC 8259 JSON restricted to the constructs the
repository's task objects exercise (no floats, no `\uXXXX` escapes, no
NaN/Infinity; such inputs fail the JSON tier and degrade to the text tier,
exactly as any other unparsable input does).
-/

/-! ## Python string primitives over `List Char` -/

/-- Test whether `l` starts with `pat` (used to model substring search). -/
def startsWithL : List Char → List Char → Bool
  | [], _ => true
  | _ :: _, [] => false
  | p :: ps, c :: cs => p = c && startsWithL ps cs

/-- The characters after the first occurrence of `pat` in `l`
(`none` when `pat` does not occur): models Python's substring search. -/
def afterFirstOcc (pat : List Char) : List Char → Option (List Char)
  | [] => if startsWithL pat [] then some [] else none
  | c :: rest =>
    if startsWithL pat (c :: rest) then some (List.drop pat.length (c :: rest))
    else afterFirstOcc pat rest

/-- Python's `pat in l` substring test. -/
def containsSub (pat l : List Char) : Bool := (afterFirstOcc pat l).isSome

/-- The prefix of `l` before the next occurrence of `pat` (all of `l` if none). -/
def upToNextOcc (pat : List Char) : List Char → List Char
  | [] => []
  | c :: rest =>
    if startsWithL pat (c :: rest) then [] else c :: upToNextOcc pat rest

/-- Python's `l.split(pat)[1]`: the text between the first occurrence of `pat`
and the following occurrence (or the end). Only used under a containment guard,
as in the source. -/
def pySplitOne (pat l : List Char) : List Char :=
  match afterFirstOcc pat l with
  | some r => upToNextOcc pat r
  | none => []

/-- Whitespace stripped by Python `str.strip()` (ASCII subset). -/
def isPySpace (c : Char) : Bool :=
  decide (c = ' ' ∨ c = '\t' ∨ c = '\n' ∨ c = Char.ofNat 13 ∨ c = Char.ofNat 11 ∨ c = Char.ofNat 12)

/-- Python `str.strip()`. -/
def pyStrip (l : List Char) : List Char :=
  ((l.dropWhile isPySpace).reverse.dropWhile isPySpace).reverse

/-- Python `str.split('\n')`. -/
def splitNl : List Char → List (List Char)
  | [] => [[]]
  | c :: cs =>
    if c = '\n' then [] :: splitNl cs
    else
      match splitNl cs with
      | g :: gs => (c :: g) :: gs
      | [] => [[c]]

/-- Fuel-indexed decimal digits worker (`fuel > n` always suffices). -/
def decCharsAux : Nat → Nat → List Char
  | 0, _ => []
  | fuel + 1, n =>
    if n < 10 then [Nat.digitChar n]
    else decCharsAux fuel (n / 10) ++ [Nat.digitChar (n % 10)]

/-- Decimal representation of a natural number, as printed by Python `str(i)`
and f-string interpolation of a nonnegative `int`. -/
def decChars (n : Nat) : List Char := decCharsAux (n + 1) n

/-- Numeric value of a digit string (proof-side inverse of `decChars`). -/
def decVal (ds : List Char) : Nat :=
  ds.foldl (fun a c => 10 * a + (c.toNat - 48)) 0

/-- Worker for Python `str.title()`: uppercase an alphabetic character that
follows a non-alphabetic one, lowercase the others (ASCII subset). -/
def titleGo : Bool → List Char → List Char
  | _, [] => []
  | prevAlpha, c :: cs =>
    (if c.isAlpha then (if prevAlpha then c.toLower else c.toUpper) else c)
      :: titleGo c.isAlpha cs

/-- Python `str.title()` (ASCII subset). -/
def titleCase (l : List Char) : List Char := titleGo false l

/-- Python `'\n'.join(lines)`. -/
def joinNl : List (List Char) → List Char
  | [] => []
  | [l] => l
  | l :: rest => l ++ '\n' :: joinNl rest

/-! ## JSON values and a model of `json.loads`

Models Python's `json.loads` on the JSON subset exercised by the repository's
task objects: `null`, booleans, integer numbers, strings with the single-
character escapes, arrays and objects (duplicate object keys resolved
last-wins, as `dict` construction does). Floats, `\uXXXX` escapes and
NaN/Infinity are not modeled: on such inputs this model fails the parse,
which in the extraction chain merely degrades to the text tier. -/

inductive Json where
  | null : Json
  | bool (b : Bool) : Json
  | num (n : Int) : Json
  | str (s : List Char) : Json
  | arr (xs : List Json) : Json
  | obj (kvs : List (List Char × Json)) : Json

/-- The `'\x7b'` character (left curly brace). -/
def lbrace : Char := Char.ofNat 123

/-- The `'\x7d'` character (right curly brace). -/
def rbrace : Char := Char.ofNat 125

/-- JSON inter-token whitespace. -/
def isJsonWs (c : Char) : Bool :=
  decide (c = ' ' ∨ c = '\t' ∨ c = '\n' ∨ c = Char.ofNat 13)

def skipWs (l : List Char) : List Char := l.dropWhile isJsonWs

/-- JSON single-character string escapes (`\uXXXX` not modeled). -/
def escChar (e : Char) : Option Char :=
  if e = '"' then some '"'
  else if e = '\\' then some '\\'
  else if e = '/' then some '/'
  else if e = 'b' then some (Char.ofNat 8)
  else if e = 'f' then some (Char.ofNat 12)
  else if e = 'n' then some '\n'
  else if e = 'r' then some (Char.ofNat 13)
  else if e = 't' then some '\t'
  else none

/-- Parse the body of a JSON string after the opening quote; returns the
decoded characters and the remaining input after the closing quote. -/
def parseStrBody : List Char → Option (List Char × List Char)
  | [] => none
  | c :: cs =>
    if c = '"' then some ([], cs)
    else if c = '\\' then
      match cs with
      | [] => none
      | e :: cs2 =>
        match escChar e with
        | some ec =>
          match parseStrBody cs2 with
          | some (str, r) => some (ec :: str, r)
          | none => none
        | none => none
    else if c.toNat < 32 then none
    else
      match parseStrBody cs with
      | some (str, r) => some (c :: str, r)
      | none => none

/-- Value of a digit run. -/
def digitsVal (ds : List Char) : Nat :=
  ds.foldl (fun a c => 10 * a + (c.toNat - 48)) 0

/-- Parse an unsigned JSON integer (`0` or a nonzero-leading digit run). -/
def parseUNum : List Char → Option (Nat × List Char)
  | [] => none
  | c :: cs =>
    if c = '0' then some (0, cs)
    else if c.isDigit then
      some (digitsVal (List.takeWhile Char.isDigit (c :: cs)),
            List.drop (List.takeWhile Char.isDigit (c :: cs)).length (c :: cs))
    else none

/-- Parse a JSON integer with optional minus sign. -/
def parseNum (s : List Char) : Option (Json × List Char) :=
  match s with
  | '-' :: rest =>
    match parseUNum rest with
    | some (n, r) => some (Json.num (-(n : Int)), r)
    | none => none
  | _ =>
    match parseUNum s with
    | some (n, r) => some (Json.num (n : Int), r)
    | none => none

/-- Python `dict` assignment on an association list: update in place if the
key exists, else append. -/
def objUpsert (d : List (List Char × Json)) (k : List Char) (v : Json) :
    List (List Char × Json) :=
  match d with
  | [] => [(k, v)]
  | (k', v') :: rest =>
    if k' = k then (k', v) :: rest else (k', v') :: objUpsert rest k v

def nullLit : List Char := "null".data
def trueLit : List Char := "true".data
def falseLit : List Char := "false".data

mutual

/-- Recursive-descent JSON value parser (fuel-indexed). -/
def parseVal : Nat → List Char → Option (Json × List Char)
  | 0, _ => none
  | f + 1, s =>
    match skipWs s with
    | [] => none
    | c :: cs =>
      if c = 'n' then
        (if startsWithL nullLit (c :: cs) then some (Json.null, List.drop 4 (c :: cs)) else none)
      else if c = 't' then
        (if startsWithL trueLit (c :: cs) then some (Json.bool true, List.drop 4 (c :: cs)) else none)
      else if c = 'f' then
        (if startsWithL falseLit (c :: cs) then some (Json.bool false, List.drop 5 (c :: cs)) else none)
      else if c = '"' then
        match parseStrBody cs with
        | some (str, r) => some (Json.str str, r)
        | none => none
      else if c = '[' then
        match parseArrTail f cs with
        | some (vs, r) => some (Json.arr vs, r)
        | none => none
      else if c = lbrace then
        match parseObjTail f cs with
        | some (kvs, r) =>
          some (Json.obj (kvs.foldl (fun d p => objUpsert d p.1 p.2) []), r)
        | none => none
      else if c = '-' ∨ c.isDigit then parseNum (c :: cs)
      else none

/-- After `[`: empty array or first element then separators. -/
def parseArrTail : Nat → List Char → Option (List Json × List Char)
  | 0, _ => none
  | f + 1, s =>
    match skipWs s with
    | [] => none
    | c :: cs =>
      if c = ']' then some ([], cs)
      else
        match parseVal f (c :: cs) with
        | some (v, r) =>
          match parseArrSep f r with
          | some (vs, r2) => some (v :: vs, r2)
          | none => none
        | none => none

/-- After an array element: `]` or `,` and another element. -/
def parseArrSep : Nat → List Char → Option (List Json × List Char)
  | 0, _ => none
  | f + 1, s =>
    match skipWs s with
    | [] => none
    | c :: cs =>
      if c = ']' then some ([], cs)
      else if c = ',' then
        match parseVal f cs with
        | some (v, r) =>
          match parseArrSep f r with
          | some (vs, r2) => some (v :: vs, r2)
          | none => none
        | none => none
      else none

/-- After a `:` inside an object member: the member's value. -/
def parseColonVal : Nat → List Char → Option (Json × List Char)
  | 0, _ => none
  | f + 1, s =>
    match skipWs s with
    | [] => none
    | c :: cs => if c = ':' then parseVal f cs else none

/-- After the opening brace: empty object or first `"key": value` member. -/
def parseObjTail : Nat → List Char → Option (List (List Char × Json) × List Char)
  | 0, _ => none
  | f + 1, s =>
    match skipWs s with
    | [] => none
    | c :: cs =>
      if c = rbrace then some ([], cs)
      else if c = '"' then
        match parseStrBody cs with
        | some (k, r) =>
          match parseColonVal f r with
          | some (v, r2) =>
            match parseObjSep f r2 with
            | some (kvs, r3) => some ((k, v) :: kvs, r3)
            | none => none
          | none => none
        | none => none
      else none

/-- After an object member: closing brace or `,` and another member. -/
def parseObjSep : Nat → List Char → Option (List (List Char × Json) × List Char)
  | 0, _ => none
  | f + 1, s =>
    match skipWs s with
    | [] => none
    | c :: cs =>
      if c = rbrace then some ([], cs)
      else if c = ',' then
        match skipWs cs with
        | [] => none
        | c2 :: cs2 =>
          if c2 = '"' then
            match parseStrBody cs2 with
            | some (k, r) =>
              match parseColonVal f r with
              | some (v, r2) =>
                match parseObjSep f r2 with
                | some (kvs, r3) => some ((k, v) :: kvs, r3)
                | none => none
              | none => none
            | none => none
          else none
      else none

end

/-- Model of `json.loads`: parse one value, then require only whitespace to
remain (anything else raises `JSONDecodeError` in Python, i.e. `none` here). -/
def jsonLoads (s : List Char) : Option Json :=
  match parseVal (s.length + 1) s with
  | some (v, rest) => if rest.all isJsonWs then some v else none
  | none => none

/-! ## The regex-match stage of `generate_custom_tasks`

`re.search(r'\[.*\]', task_data, re.DOTALL)` matches at the leftmost position
`p` with `task_data[p] = '['` and some `']'` strictly after it; `.*` is greedy
under DOTALL, so the match extends to the last `']'` of the whole text. -/

/-- The prefix of `l` up to and including the last occurrence of `c`. -/
def takeToLast (c : Char) (l : List Char) : List Char :=
  (l.reverse.dropWhile (fun x => !(x = c : Bool))).reverse

/-- Model of `re.search(r'\[.*\]', ·, re.DOTALL).group()`. -/
def regexSlice : List Char → Option (List Char)
  | [] => none
  | c :: rest =>
    if c = '[' ∧ ']' ∈ rest then some (c :: takeToLast ']' rest)
    else regexSlice rest

/-! ## Task records and `_parse_text_tasks`

A task record models the Python dict built by the parsing tiers: an absent
field is an absent key. `dependencies` and `estimated_complexity` are never
set by `_parse_text_tasks` but are read (with defaults) by
`create_project_guide`. -/

structure TaskRec where
  name : Option (List Char)
  description : Option (List Char)
  expected_output : Option (List Char)
  success_criteria : Option (List Char)
  dependencies : Option (List Char)
  estimated_complexity : Option (List Char)

/-- The empty Python dict `{}`. -/
def emptyTask : TaskRec := ⟨none, none, none, none, none, none⟩

/-- Python truthiness of the record dict: `{}` is falsy. -/
def TaskRec.isEmptyB (t : TaskRec) : Bool :=
  t.name.isNone && t.description.isNone && t.expected_output.isNone &&
    t.success_criteria.isNone && t.dependencies.isNone && t.estimated_complexity.isNone

def mTN : List Char := "TASK NAME:".data
def mDESC : List Char := "DESCRIPTION:".data
def mEO : List Char := "EXPECTED OUTPUT:".data
def mSC : List Char := "SUCCESS CRITERIA:".data

/-- The freshly-started record `{'name': line.split('TASK NAME:')[1].strip()}`
(`l` is the already-stripped line). -/
def freshRec (l : List Char) : TaskRec :=
  { emptyTask with name := some (pyStrip (pySplitOne mTN l)) }

/-- Records contributed by `if current_task: tasks.append(current_task)`:
none when the in-progress dict is falsy. -/
def emitCur (t : TaskRec) : List TaskRec := if t.isEmptyB then [] else [t]

/-- One iteration of the line loop of `_parse_text_tasks`: the state is the
`(tasks, current_task)` pair and the branches mirror the `if`/`elif` chain. -/
def stepLine (st : List TaskRec × TaskRec) (rawLine : List Char) :
    List TaskRec × TaskRec :=
  let l := pyStrip rawLine
  if containsSub mTN l then
    (st.1 ++ emitCur st.2, freshRec l)
  else if containsSub mDESC l then
    (st.1, { st.2 with description := some (pyStrip (pySplitOne mDESC l)) })
  else if containsSub mEO l then
    (st.1, { st.2 with expected_output := some (pyStrip (pySplitOne mEO l)) })
  else if containsSub mSC l then
    (st.1, { st.2 with success_criteria := some (pyStrip (pySplitOne mSC l)) })
  else st

/-- The trailing `if current_task: tasks.append(current_task)`. -/
def flushTasks (p : List TaskRec × TaskRec) : List TaskRec :=
  p.1 ++ emitCur p.2

/-- Model of `_generate_fallback_tasks`. -/
def fallbackTasks : List TaskRec :=
  [{ emptyTask with
      name := some ("Project Setup".data),
      description := some ("Set up basic project structure and files".data),
      expected_output := some ("Working project foundation".data),
      success_criteria := some ("Files can be opened and basic structure exists".data) },
   { emptyTask with
      name := some ("Core Implementation".data),
      description := some ("Implement main functionality".data),
      expected_output := some ("Working core features".data),
      success_criteria := some ("Main features function as expected".data) },
   { emptyTask with
      name := some ("Testing and Polish".data),
      description := some ("Test functionality and add finishing touches".data),
      expected_output := some ("Polished, working application".data),
      success_criteria := some ("Application works without errors".data) }]

/-- Model of `_parse_text_tasks`: split on newlines, run the line loop, flush the
in-progress record, and fall back to the fixed three tasks when nothing was
collected (`return tasks if tasks else self._generate_fallback_tasks()`). -/
def parse_text_tasks (text : List Char) : List TaskRec :=
  match flushTasks ((splitNl text).foldl stepLine ([], emptyTask)) with
  | [] => fallbackTasks
  | t :: ts => t :: ts

/-- Encoding of a text-tier record as a JSON object (present keys only).
Python dict equality is insertion-order-insensitive, so a fixed key order is a
faithful quotient. -/
def taskRecToJson (t : TaskRec) : Json :=
  Json.obj
    (((((match t.name with | some v => [(("name").data, Json.str v)] | none => [])
      ++ (match t.description with | some v => [(("description").data, Json.str v)] | none => []))
      ++ (match t.expected_output with | some v => [(("expected_output").data, Json.str v)] | none => []))
      ++ (match t.success_criteria with | some v => [(("success_criteria").data, Json.str v)] | none => []))
      ++ (match t.dependencies with | some v => [(("dependencies").data, Json.str v)] | none => []))

/-- The JSON tier of `generate_custom_tasks`: regex match then `json.loads`.
A successful parse of a slice beginning with `[` is necessarily an array;
the non-array branch is unreachable and degrades like a parse failure. -/
def jsonStage (t : List Char) : Option (List Json) :=
  match regexSlice t with
  | some slice =>
    match jsonLoads slice with
    | some (Json.arr vs) => some vs
    | _ => none
  | none => none

/-- The parsing chain of `generate_custom_tasks` as a function of the raw
model-output text: JSON tier, then `_parse_text_tasks` (which itself ends in
the fixed fallback). Exceptions inside the `try` block land in the text tier. -/
def generate_custom_tasks (raw : List Char) : List Json :=
  match jsonStage raw with
  | some vs => vs
  | none => (parse_text_tasks raw).map taskRecToJson

/-! ## Specification-side view of the line heuristic (for claim C2)

The claim describes `_parse_text_tasks` as cutting the input into blocks at
`TASK NAME:` lines and reading each record's fields from the lines of its
block. These definitions state that reading precisely. -/

inductive LineKind where
  | tn | desc | eo | sc | other
deriving DecidableEq

/-- Classification of a line by the `if`/`elif` chain of `_parse_text_tasks`
(first matching marker wins, containment tested on the stripped line). -/
def classifyLine (raw : List Char) : LineKind :=
  let l := pyStrip raw
  if containsSub mTN l then .tn
  else if containsSub mDESC l then .desc
  else if containsSub mEO l then .eo
  else if containsSub mSC l then .sc
  else .other

/-- Is this not a `TASK NAME:` line? -/
def notTN (l : List Char) : Bool := !(decide (classifyLine l = LineKind.tn))

/-- Cut a line list (expected to begin with a `TASK NAME:` line) into blocks:
each block is its header line plus the following non-header lines. -/
def groupBlocks : List (List Char) → List (List Char × List (List Char))
  | [] => []
  | l :: rest =>
    (l, rest.takeWhile notTN) :: groupBlocks (rest.dropWhile notTN)
  termination_by ls => ls.length
  decreasing_by
    simp only [List.length_cons]
    exact Nat.lt_succ_of_le (List.dropWhile_sublist _).length_le

/-- The field value a marker line contributes: `line.split(marker)[1].strip()`
of the stripped line. -/
def extractVal (pat raw : List Char) : List Char :=
  pyStrip (pySplitOne pat (pyStrip raw))

/-- The last line of `body` of classification `k`, extracted with `pat`. -/
def lastFieldVal (k : LineKind) (pat : List Char) (body : List (List Char)) :
    Option (List Char) :=
  ((body.filter (fun l => decide (classifyLine l = k))).getLast?).map (extractVal pat)

/-- The record a block denotes: name from the header line, each field from
the last line of the block carrying that field's marker. -/
def blockRec (hdr : List Char) (body : List (List Char)) : TaskRec :=
  { name := some (extractVal mTN hdr),
    description := lastFieldVal .desc mDESC body,
    expected_output := lastFieldVal .eo mEO body,
    success_criteria := lastFieldVal .sc mSC body,
    dependencies := none,
    estimated_complexity := none }

/-- Proof-side view of one non-header line's effect on the in-progress
record (what `stepLine` does when the line is not a `TASK NAME:` line). -/
def applyLine (cur : TaskRec) (raw : List Char) : TaskRec :=
  match classifyLine raw with
  | .desc => { cur with description := some (extractVal mDESC raw) }
  | .eo => { cur with expected_output := some (extractVal mEO raw) }
  | .sc => { cur with success_criteria := some (extractVal mSC raw) }
  | _ => cur

/-! ## The execution loop of `run_intelligent_crew`

The external `crew_task.execute_sync()` call (and everything else inside the
per-task `try` block that can raise) is abstracted as an oracle from the
1-based task index to an outcome. A success carries the result payload text,
the rendered elapsed-duration text (the `{x:.1f}` formatting of the float is
below the abstraction) and the ISO timestamp text; a failure carries
`str(e)` and the timestamp. `time.sleep` calls are recorded as a trace. -/

inductive ExecOutcome where
  | ok (payload timeStr ts : List Char)
  | err (msg ts : List Char)

/-- A value of the `results` dict produced by the loop: the success record
`{'task_config', 'result', 'execution_time', 'estimated_tokens', 'timestamp'}`
or the failure record `{'task_config', 'error', 'timestamp'}`. -/
inductive RunEntry where
  | success (cfg : TaskRec) (payload timeStr : List Char) (estTokens : Nat) (ts : List Char)
  | failure (cfg : TaskRec) (msg ts : List Char)

/-- The `task_config` a record holds. -/
def RunEntry.cfg : RunEntry → TaskRec
  | .success c _ _ _ _ => c
  | .failure c _ _ => c

/-- A recorded `time.sleep`: the base inter-task delay or the extra
rate-limit cooldown. -/
inductive Sleep where
  | base (secs : Nat)
  | extra (secs : Nat)

/-- Slug used in success keys:
`task_config.get('name', 'unnamed').replace(' ', '_').lower()` (ASCII). -/
def slugify (name : List Char) : List Char :=
  (name.map (fun c => if c = ' ' then '_' else c)).map Char.toLower

/-- Common shape of both result keys: `"task_" + str(i) + "_" + tail`. -/
def taskKey (i : Nat) (tail : List Char) : List Char :=
  "task_".data ++ (decChars i ++ '_' :: tail)

/-- Key of a success record: `f"task_{i}_{slug}"`. -/
def succKey (i : Nat) (cfg : TaskRec) : List Char :=
  taskKey i (slugify (cfg.name.getD ("unnamed".data)))

/-- Key of a failure record: `f"task_{i}_failed"`. -/
def failKey (i : Nat) : List Char := taskKey i ("failed".data)

/-- Token estimate `len(task_config.get('description', '')) * 4`. -/
def estimated_tokens (cfg : TaskRec) : Nat :=
  (cfg.description.getD []).length * 4

/-- The rate-limit marker matched against `str(e)`. -/
def rlMarker : List Char := "RateLimitError".data

/-- Python dict assignment on the results association list. -/
def dictSet (d : List (List Char × RunEntry)) (k : List Char) (v : RunEntry) :
    List (List Char × RunEntry) :=
  match d with
  | [] => [(k, v)]
  | (k', v') :: rest =>
    if k' = k then (k', v) :: rest else (k', v') :: dictSet rest k v

/-- One iteration of the task loop (`i` is the 1-based index, `k` the task
count): produces the dict entry and the sleeps performed. On success the base
delay is slept only when `i < k`; on failure the extra 120 s cooldown is slept
exactly when `str(e)` contains `"RateLimitError"`, and the base delay is not. -/
def runStep (delay k i : Nat) (cfg : TaskRec) (out : ExecOutcome) :
    (List Char × RunEntry) × List Sleep :=
  match out with
  | .ok payload timeStr ts =>
    ((succKey i cfg, .success cfg payload timeStr (estimated_tokens cfg) ts),
     if i < k then [.base delay] else [])
  | .err msg ts =>
    ((failKey i, .failure cfg msg ts),
     if containsSub rlMarker msg then [.extra 120] else [])

/-- The task loop of `run_intelligent_crew`: walk the remaining tasks from
index `i`, mutating the results dict and accumulating the sleep trace. -/
def runLoopAux (delay k : Nat) (exec : Nat → ExecOutcome) :
    Nat → List TaskRec → List (List Char × RunEntry) →
    List (List Char × RunEntry) × List Sleep
  | _, [], d => (d, [])
  | i, cfg :: rest, d =>
    let step := runStep delay k i cfg (exec i)
    let next := runLoopAux delay k exec (i + 1) rest (dictSet d step.1.1 step.1.2)
    (next.1, step.2 ++ next.2)

/-- The execution loop of `run_intelligent_crew` over a designed task list,
starting from the empty `results` dict at index 1. -/
def run_intelligent_crew (delay : Nat) (tasks : List TaskRec)
    (exec : Nat → ExecOutcome) : List (List Char × RunEntry) × List Sleep :=
  runLoopAux delay tasks.length exec 1 tasks []

/-- Proof-side pure view of the loop's records: one appended entry per task. -/
def pureEntries (delay k : Nat) (exec : Nat → ExecOutcome) :
    Nat → List TaskRec → List (List Char × RunEntry)
  | _, [] => []
  | i, cfg :: rest =>
    (runStep delay k i cfg (exec i)).1 :: pureEntries delay k exec (i + 1) rest

/-- Proof-side pure view of the loop's sleep trace. -/
def pureSleeps (delay k : Nat) (exec : Nat → ExecOutcome) :
    Nat → List TaskRec → List Sleep
  | _, [] => []
  | i, cfg :: rest =>
    (runStep delay k i cfg (exec i)).2 ++ pureSleeps delay k exec (i + 1) rest

/-- Did the outcome succeed? -/
def isOkB : ExecOutcome → Bool
  | .ok _ _ _ => true
  | .err _ _ => false

/-- Is the outcome a failure whose `str(e)` contains the rate-limit marker? -/
def isRLB : ExecOutcome → Bool
  | .ok _ _ _ => false
  | .err msg _ => containsSub rlMarker msg

/-- Is the sleep the extra rate-limit cooldown? -/
def isExtraB : Sleep → Bool
  | .extra _ => true
  | .base _ => false

/-- Is the dict entry a success record (Python: `'error' not in v`)? -/
def isSuccEntryB (p : List Char × RunEntry) : Bool :=
  match p.2 with
  | .success _ _ _ _ _ => true
  | .failure _ _ _ => false

/-! ## Result compilation: `combine_intelligent_results` and the terminal
phase of `run_intelligent_crew` -/

/-- The fields of `analysis_result` read by `combine_intelligent_results`:
`analysis_result.get('analysis', {}).get('analysis', ...)` (the nested `get`
chain collapses to one optional text) and
`analysis_result.get('project_guide', ...)`. -/
structure AnalysisBundle where
  analysisText : Option (List Char)
  projectGuide : Option (List Char)

/-- A value of the final results dict: a task record, the combined text, or
the analysis bundle. -/
inductive ResVal where
  | record (e : RunEntry)
  | text (s : List Char)
  | bundle (ar : AnalysisBundle)

def combinedKey : List Char := "combined".data
def analysisKey : List Char := "analysis".data

/-- The lines `combine_intelligent_results` appends for one task entry. -/
def entryLines (key : List Char) (e : RunEntry) : List (List Char) :=
  (("### ".data) ++ titleCase (key.map (fun c => if c = '_' then ' ' else c)))
    :: (match e with
        | .failure _ msg _ =>
          [("**Status:** Failed".data), ("**Error:** ".data) ++ msg]
        | .success _ payload timeStr _ _ =>
          [("**Status:** Success".data),
           ("**Execution Time:** ".data) ++ timeStr ++ ("s".data),
           payload])
    ++ [[]]

/-- The header lines of the combined report (`now` is the
`datetime.now().isoformat()` text). -/
def combineHdrLines (ar : AnalysisBundle) (now : List Char) : List (List Char) :=
  [("# INTELLIGENT PROJECT DEVELOPMENT RESULTS".data),
   ("Generated: ".data) ++ now,
   [],
   ("## PROJECT ANALYSIS".data),
   ar.analysisText.getD ("No analysis available".data),
   [],
   ("## TASK EXECUTION RESULTS".data),
   []]

/-- The trailing guide lines of the combined report. -/
def combineFtrLines (ar : AnalysisBundle) : List (List Char) :=
  [("## IMPLEMENTATION GUIDE".data),
   ar.projectGuide.getD ("No guide available".data)]

/-- Model of `combine_intelligent_results(task_results, analysis_result)`: header,
one section per entry other than `'combined'`/`'analysis'`, guide; joined
with newlines. -/
def combine_intelligent_results (d : List (List Char × RunEntry))
    (ar : AnalysisBundle) (now : List Char) : List Char :=
  joinNl (combineHdrLines ar now
    ++ (d.filter (fun p => !(decide (p.1 = combinedKey ∨ p.1 = analysisKey)))).flatMap
        (fun p => entryLines p.1 p.2)
    ++ combineFtrLines ar)

/-- Python dict lookup. -/
def dictLookup (k : List Char) : List (List Char × ResVal) → Option ResVal
  | [] => none
  | (k', v) :: rest => if k' = k then some v else dictLookup k rest

/-- Python dict assignment on the final results association list. -/
def dictSetR (d : List (List Char × ResVal)) (k : List Char) (v : ResVal) :
    List (List Char × ResVal) :=
  match d with
  | [] => [(k, v)]
  | (k', v') :: rest =>
    if k' = k then (k', v) :: rest else (k', v') :: dictSetR rest k v

/-- Terminal phase of `run_intelligent_crew`: if any record lacks an
`'error'` key, synthesize the combined report from the loop's records and
store it under `'combined'`, then store the analysis bundle under
`'analysis'`; otherwise leave the results untouched. -/
def finalize_results (d : List (List Char × RunEntry)) (ar : AnalysisBundle)
    (now : List Char) : List (List Char × ResVal) :=
  let base := d.map (fun p => (p.1, ResVal.record p.2))
  if d.any isSuccEntryB then
    dictSetR (dictSetR base combinedKey (.text (combine_intelligent_results d ar now)))
      analysisKey (.bundle ar)
  else base

/-! ## `create_project_guide` -/

/-- The fields of the `analyze_project` result dict that
`create_project_guide` reads: `'project_idea'`, `'target_audience'`,
`'timeline'`, `'analysis'` are indexed directly (always present in the flow),
`'timestamp'` via `.get` (never set by the flow, hence optional). -/
structure AnalysisResult where
  analysis : List Char
  projectIdea : List Char
  targetAudience : List Char
  timeline : List Char
  timestamp : Option (List Char)

/-- The guide header f-string up to and including `Total Tasks: {n}` and the
following blank line. -/
def guideHeader (ar : AnalysisResult) (n : Nat) : List Char :=
  ("# PROJECT DEVELOPMENT GUIDE\nGenerated: ".data)
  ++ ar.timestamp.getD ("Unknown".data)
  ++ ("\n\n## PROJECT OVERVIEW\n**Idea:** ".data) ++ ar.projectIdea
  ++ ("\n**Target Audience:** ".data) ++ ar.targetAudience
  ++ ("\n**Timeline:** ".data) ++ ar.timeline
  ++ ("\n\n## ANALYSIS RESULTS\n".data) ++ ar.analysis
  ++ ("\n\n## DEVELOPMENT TASKS\nTotal Tasks: ".data) ++ decChars n
  ++ ("\n\n".data)

/-- The per-task section f-string of `create_project_guide` (1-based `i`),
with the documented `.get` placeholder defaults. -/
def taskSection (i : Nat) (t : TaskRec) : List Char :=
  ("### Task ".data) ++ decChars i ++ (": ".data)
  ++ t.name.getD ("Unnamed Task".data)
  ++ ("\n\n**Description:** ".data) ++ t.description.getD ("No description provided".data)
  ++ ("\n\n**Expected Output:** ".data) ++ t.expected_output.getD ("No output specified".data)
  ++ ("\n\n**Success Criteria:** ".data) ++ t.success_criteria.getD ("No criteria specified".data)
  ++ ("\n\n**Dependencies:** ".data) ++ t.dependencies.getD ("None specified".data)
  ++ ("\n\n**Complexity:** ".data) ++ t.estimated_complexity.getD ("Unknown".data)
  ++ ("\n\n---\n\n".data)

/-- The fixed implementation-notes / success-metrics tail of the guide. -/
def guideFooter : List Char :=
  ("## IMPLEMENTATION NOTES\n\n1. **Follow the task order** - dependencies matter\n2. **Test each task** before moving to the next\n3. **Focus on working code** over perfect code\n4. **Validate success criteria** for each task\n5. **Document any deviations** from the plan\n\n## SUCCESS METRICS\n\n- [ ] All tasks completed successfully\n- [ ] Final deliverable works as intended\n- [ ] Success criteria met for each task\n- [ ] Project meets original requirements\n\n".data)

/-- The `for i, task in enumerate(custom_tasks, 1)` concatenation. -/
def sectionsFrom : Nat → List TaskRec → List Char
  | _, [] => []
  | i, t :: rest => taskSection i t ++ sectionsFrom (i + 1) rest

/-- Model of `create_project_guide(analysis_result, custom_tasks)`. -/
def create_project_guide (ar : AnalysisResult) (tasks : List TaskRec) : List Char :=
  guideHeader ar tasks.length ++ sectionsFrom 1 tasks ++ guideFooter

/-- Predicate: `p` occurs as a contiguous substring of `l`. -/
def occursIn (p l : List Char) : Prop := ∃ a b, l = a ++ p ++ b

/-! ## Concrete inputs used by witnesses and counterexamples -/

/-- Witness task list text for the line heuristic. -/
def c2WitnessText : List Char :=
  "TASK NAME: Build UI\nDESCRIPTION: draw the screen\nEXPECTED OUTPUT: a page\nTASK NAME: Ship\nSUCCESS CRITERIA: works".data

/-- Counterexample text for C2: a `DESCRIPTION:` line before the first
`TASK NAME:` line opens an extra record. -/
def c2CexText : List Char := "DESCRIPTION: x\nTASK NAME: A".data

/-- Counterexample text for C3: a field-marker line with no `TASK NAME:`
marker yields one record, not the fixed three. -/
def c3CexText : List Char := "DESCRIPTION: hi".data

/-- Witness text for C3: no markers, no brackets. -/
def c3WitnessText : List Char := "nothing to see here".data

/-- The embedded well-formed JSON array used by the C1 witness. -/
def c1ArrText : List Char := "[\x7b\"name\": \"A\"\x7d]".data

/-- Witness surrounding text (no `[` before, no `]` after). -/
def c1Pre : List Char := "Here are the tasks: ".data
def c1Post : List Char := " -- done".data

/-- The decoded task list of `c1ArrText`. -/
def c1Decoded : List Json := [Json.obj [(("name").data, Json.str (("A").data))]]

/-- Counterexample text for C1: the well-formed array `["a"]` followed by a
stray `]`, which the greedy regex swallows. -/
def c1CexText : List Char := "[\"a\"] x]".data

/-- The task used by the C8 witness and counterexample. -/
def c8Cfg : TaskRec :=
  { emptyTask with
      name := some ("Build App".data),
      description := some ("render the page".data) }

/-- An oracle that always fails with a non-rate-limit error. -/
def c8FailExec : Nat → ExecOutcome :=
  fun _ => ExecOutcome.err ("boom".data) ("2026-01-01T00:00:00".data)

/-- An oracle that always succeeds. -/
def c8OkExec : Nat → ExecOutcome :=
  fun _ => ExecOutcome.ok ("result text".data) ("1.0".data) ("2026-01-01T00:00:00".data)

/-- Analysis inputs for the C7 witness. -/
def c7Ar : AnalysisResult :=
  { analysis := ("analysis body".data),
    projectIdea := ("an idea".data),
    targetAudience := ("gamers".data),
    timeline := ("2 weeks".data),
    timestamp := none }

/-- Task with only name and description populated, for the C7 witness. -/
def c7Task : TaskRec :=
  { emptyTask with
      name := some ("Setup".data),
      description := some ("do the setup".data) }

/-! # Theorems -/

/-! ## Helper lemmas about the regex-match stage -/

theorem dropWhile_append_of_all {p : Char → Bool} (a b : List Char)
    (h : ∀ x ∈ a, p x = true) :
    (a ++ b).dropWhile p = b.dropWhile p := by
  induction a with
  | nil => rfl
  | cons x xs ih =>
    have hx : p x = true := h x (by simp)
    simp only [List.cons_append, List.dropWhile_cons, hx, if_true]
    exact ih (fun y hy => h y (by simp [hy]))

theorem getLast?_decomp {l : List Char} {c : Char} (h : l.getLast? = some c) :
    ∃ a, l = a ++ [c] := by
  induction l with
  | nil => simp at h
  | cons x xs ih =>
    cases xs with
    | nil =>
      simp [List.getLast?] at h
      exact ⟨[], by simp [h]⟩
    | cons y ys =>
      rw [List.getLast?_cons_cons] at h
      obtain ⟨a, ha⟩ := ih h
      exact ⟨x :: a, by simp [ha]⟩

theorem takeToLast_append (s₁ post : List Char)
    (h1 : s₁.getLast? = some ']') (h2 : ']' ∉ post) :
    takeToLast ']' (s₁ ++ post) = s₁ := by
  obtain ⟨a, ha⟩ := getLast?_decomp h1
  subst ha
  unfold takeToLast
  rw [List.reverse_append, List.reverse_append]
  simp only [List.reverse_cons, List.reverse_nil, List.nil_append]
  rw [dropWhile_append_of_all post.reverse ([']'] ++ a.reverse)
    (fun x hx => by
      have : x ∈ post := List.mem_reverse.mp hx
      have hne : ¬(x = ']') := fun he => h2 (he ▸ this)
      simp [hne])]
  simp [List.dropWhile_cons]

theorem regexSlice_append (pre s post : List Char)
    (hpre : '[' ∉ pre) (hpost : ']' ∉ post)
    (hhead : s.head? = some '[') (hlast : s.getLast? = some ']') :
    regexSlice (pre ++ s ++ post) = some s := by
  obtain ⟨a, ha⟩ := getLast?_decomp hlast
  cases a with
  | nil =>
    subst ha; simp at hhead
  | cons x a' =>
    have hx : x = '[' := by
      subst ha; simpa using hhead
    subst hx; subst ha
    induction pre with
    | nil =>
      simp only [List.nil_append, List.cons_append, List.append_assoc]
      rw [regexSlice]
      have hmem : ']' ∈ a' ++ ']' :: post := by simp
      rw [if_pos ⟨rfl, hmem⟩]
      have : a' ++ ']' :: post = (a' ++ [']']) ++ post := by simp
      rw [this, takeToLast_append (a' ++ [']']) post (by simp) hpost]
    | cons c pre' ih =>
      have hc : ¬(c = '[') := fun he => hpre (by simp [he])
      simp only [List.cons_append]
      rw [regexSlice]
      rw [if_neg (fun hand => hc hand.1)]
      exact ih (fun hm => hpre (by simp [hm]))

/-! ## Claim C1 -/

/-- C1: corrected form. For an input text `pre ++ s ++ post` where `s` is a
well-formed bracket-delimited JSON array (it parses, starts with `[` and ends
with `]`), the surrounding text contains no `[` before it and no `]` after
it, the parsing stage of `generate_custom_tasks` returns exactly the decoded
list of task records, every field preserved verbatim. The bracket conditions
on the surrounding text are necessary: the `re.search(r'\[.*\]', ·, DOTALL)`
pattern matches greedily from the first `[` to the last `]` of the whole
text, so stray brackets make the matched slice unparsable (see the
counterexample). -/
theorem C1_json_tier (pre s post : List Char) (vs : List Json)
    (hpre : '[' ∉ pre) (hpost : ']' ∉ post)
    (hhead : s.head? = some '[') (hlast : s.getLast? = some ']')
    (hparse : jsonLoads s = some (Json.arr vs)) :
    generate_custom_tasks (pre ++ s ++ post) = vs := by
  have hs := regexSlice_append pre s post hpre hpost hhead hlast
  have hj : jsonStage (pre ++ s ++ post) = some vs := by
    simp only [jsonStage, hs, hparse]
  simp only [generate_custom_tasks, hj]

/-- C1 witness: the array `[{"name": "A"}]` embedded in bracket-free
surrounding text decodes to its task object. -/
theorem C1_json_tier_witness :
    generate_custom_tasks (c1Pre ++ c1ArrText ++ c1Post) = c1Decoded :=
  C1_json_tier c1Pre c1ArrText c1Post c1Decoded
    (by decide) (by decide) (by decide) (by decide) rfl

/-- C1 counterexample: the text `["a"] x]` contains the well-formed
bracket-delimited JSON array `["a"]` embedded in surrounding text, but the
greedy regex matches `["a"] x]`, `json.loads` fails on it, and the extractor
falls through to the three fixed fallback tasks instead of returning the
decoded one-element list. -/
theorem C1_json_tier_cex :
    jsonLoads ("[\"a\"]".data) = some (Json.arr [Json.str (("a").data)])
    ∧ c1CexText = ("[\"a\"]".data) ++ (" x]".data)
    ∧ (generate_custom_tasks c1CexText).length = 3
    ∧ generate_custom_tasks c1CexText ≠ [Json.str (("a").data)] := by
  refine ⟨rfl, rfl, rfl, fun h => ?_⟩
  have h' := congrArg List.length h
  rw [show (generate_custom_tasks c1CexText).length = 3 from rfl] at h'
  exact absurd h' (by decide)

/-! ## Claim C4 -/

/-- C4: the parsing chain of `generate_custom_tasks` is total and degrades
through its tiers: on every input it either returns the JSON tier's decoded
list, or (exactly when the JSON tier fails) the text tier's records, which
are never empty thanks to the fixed fallback. No error reaches the caller. -/
theorem C4_graceful_chain (t : List Char) :
    (∃ vs, jsonStage t = some vs ∧ generate_custom_tasks t = vs)
    ∨ (jsonStage t = none
        ∧ generate_custom_tasks t = (parse_text_tasks t).map taskRecToJson
        ∧ parse_text_tasks t ≠ []) := by
  cases h : jsonStage t with
  | some vs => exact Or.inl ⟨vs, rfl, by simp [generate_custom_tasks, h]⟩
  | none =>
    refine Or.inr ⟨rfl, by simp [generate_custom_tasks, h], ?_⟩
    unfold parse_text_tasks
    cases flushTasks ((splitNl t).foldl stepLine ([], emptyTask)) with
    | nil => simp [fallbackTasks]
    | cons a l => simp

/-! ## Claim C9 -/

/-- C9: the parsing chain is a deterministic pure function of the input
text: identical inputs yield identical task-record sequences. -/
theorem C9_deterministic (t₁ t₂ : List Char) (h : t₁ = t₂) :
    generate_custom_tasks t₁ = generate_custom_tasks t₂ := by rw [h]

/-- C9 witness at a concrete input. -/
theorem C9_deterministic_witness :
    generate_custom_tasks c3WitnessText = generate_custom_tasks c3WitnessText :=
  C9_deterministic c3WitnessText c3WitnessText rfl

/-! ## Helper lemmas about the line heuristic -/

theorem stepLine_of_tn (st : List TaskRec × TaskRec) (raw : List Char)
    (h : classifyLine raw = LineKind.tn) :
    stepLine st raw = (st.1 ++ emitCur st.2, freshRec (pyStrip raw)) := by
  unfold classifyLine at h
  unfold stepLine
  dsimp only at h ⊢
  split_ifs at h ⊢ <;> simp_all

theorem stepLine_of_nonTN (st : List TaskRec × TaskRec) (raw : List Char)
    (h : classifyLine raw ≠ LineKind.tn) :
    stepLine st raw = (st.1, applyLine st.2 raw) := by
  unfold classifyLine at h
  unfold stepLine applyLine extractVal classifyLine
  dsimp only at h ⊢
  split_ifs at h ⊢ <;> simp_all

theorem foldl_stepLine_other (ls : List (List Char)) :
    ∀ acc cur, (∀ l ∈ ls, classifyLine l = LineKind.other) →
    List.foldl stepLine (acc, cur) ls = (acc, cur) := by
  induction ls with
  | nil => intro acc cur _; rfl
  | cons l ls ih =>
    intro acc cur h
    have hl : classifyLine l = LineKind.other := h l (by simp)
    have hstep : stepLine (acc, cur) l = (acc, applyLine cur l) :=
      stepLine_of_nonTN (acc, cur) l (by simp [hl])
    have happ : applyLine cur l = cur := by unfold applyLine; rw [hl]
    rw [List.foldl_cons, hstep, happ]
    exact ih acc cur (fun x hx => h x (by simp [hx]))

theorem foldl_stepLine_nonTN (ls : List (List Char)) :
    ∀ acc cur, (∀ l ∈ ls, classifyLine l ≠ LineKind.tn) →
    List.foldl stepLine (acc, cur) ls = (acc, List.foldl applyLine cur ls) := by
  induction ls with
  | nil => intro acc cur _; rfl
  | cons l ls ih =>
    intro acc cur h
    have hstep : stepLine (acc, cur) l = (acc, applyLine cur l) :=
      stepLine_of_nonTN (acc, cur) l (h l (by simp))
    rw [List.foldl_cons, hstep, List.foldl_cons]
    exact ih acc (applyLine cur l) (fun x hx => h x (by simp [hx]))

theorem getLast?_cons_eq {α : Type} (x : α) (xs : List α) :
    (x :: xs).getLast? =
      match xs.getLast? with
      | some y => some y
      | none => some x := by
  cases xs with
  | nil => rfl
  | cons y ys =>
    rw [List.getLast?_cons_cons]
    have h : (y :: ys).getLast?.isSome := List.getLast?_isSome.mpr (by simp)
    cases hg : (y :: ys).getLast? with
    | none => rw [hg] at h; simp at h
    | some z => rfl

theorem applyLine_desc_of_ne (cur : TaskRec) (l : List Char)
    (h : classifyLine l ≠ LineKind.desc) :
    (applyLine cur l).description = cur.description := by
  unfold applyLine
  cases hc : classifyLine l <;> simp_all

theorem applyLine_eo_of_ne (cur : TaskRec) (l : List Char)
    (h : classifyLine l ≠ LineKind.eo) :
    (applyLine cur l).expected_output = cur.expected_output := by
  unfold applyLine
  cases hc : classifyLine l <;> simp_all

theorem applyLine_sc_of_ne (cur : TaskRec) (l : List Char)
    (h : classifyLine l ≠ LineKind.sc) :
    (applyLine cur l).success_criteria = cur.success_criteria := by
  unfold applyLine
  cases hc : classifyLine l <;> simp_all

theorem foldl_applyLine_name (ls : List (List Char)) :
    ∀ cur, (List.foldl applyLine cur ls).name = cur.name := by
  induction ls with
  | nil => intro cur; rfl
  | cons l ls ih =>
    intro cur
    rw [List.foldl_cons, ih]
    unfold applyLine
    cases classifyLine l <;> rfl

theorem foldl_applyLine_deps (ls : List (List Char)) :
    ∀ cur, (List.foldl applyLine cur ls).dependencies = cur.dependencies := by
  induction ls with
  | nil => intro cur; rfl
  | cons l ls ih =>
    intro cur
    rw [List.foldl_cons, ih]
    unfold applyLine
    cases classifyLine l <;> rfl

theorem foldl_applyLine_cx (ls : List (List Char)) :
    ∀ cur, (List.foldl applyLine cur ls).estimated_complexity = cur.estimated_complexity := by
  induction ls with
  | nil => intro cur; rfl
  | cons l ls ih =>
    intro cur
    rw [List.foldl_cons, ih]
    unfold applyLine
    cases classifyLine l <;> rfl

theorem foldl_applyLine_desc (ls : List (List Char)) :
    ∀ cur, (List.foldl applyLine cur ls).description =
      match lastFieldVal .desc mDESC ls with
      | some v => some v
      | none => cur.description := by
  induction ls with
  | nil => intro cur; rfl
  | cons l ls ih =>
    intro cur
    rw [List.foldl_cons, ih]
    cases hc : Decidable.decide (classifyLine l = LineKind.desc) with
    | true =>
      have hcl : classifyLine l = LineKind.desc := by simpa using hc
      have happ : (applyLine cur l).description = some (extractVal mDESC l) := by
        unfold applyLine; rw [hcl]
      unfold lastFieldVal
      simp only [List.filter_cons, hc, if_true]
      rw [getLast?_cons_eq]
      cases hg : (List.filter (fun x => decide (classifyLine x = LineKind.desc)) ls).getLast? with
      | some y => simp [lastFieldVal, hg]
      | none => simp [lastFieldVal, hg, happ]
    | false =>
      have hcl : classifyLine l ≠ LineKind.desc := by simpa using hc
      have happ := applyLine_desc_of_ne cur l hcl
      unfold lastFieldVal
      simp only [List.filter_cons, hc, if_false]
      rw [happ]
      rfl

theorem foldl_applyLine_eo (ls : List (List Char)) :
    ∀ cur, (List.foldl applyLine cur ls).expected_output =
      match lastFieldVal .eo mEO ls with
      | some v => some v
      | none => cur.expected_output := by
  induction ls with
  | nil => intro cur; rfl
  | cons l ls ih =>
    intro cur
    rw [List.foldl_cons, ih]
    cases hc : Decidable.decide (classifyLine l = LineKind.eo) with
    | true =>
      have hcl : classifyLine l = LineKind.eo := by simpa using hc
      have happ : (applyLine cur l).expected_output = some (extractVal mEO l) := by
        unfold applyLine; rw [hcl]
      unfold lastFieldVal
      simp only [List.filter_cons, hc, if_true]
      rw [getLast?_cons_eq]
      cases hg : (List.filter (fun x => decide (classifyLine x = LineKind.eo)) ls).getLast? with
      | some y => simp [lastFieldVal, hg]
      | none => simp [lastFieldVal, hg, happ]
    | false =>
      have hcl : classifyLine l ≠ LineKind.eo := by simpa using hc
      have happ := applyLine_eo_of_ne cur l hcl
      unfold lastFieldVal
      simp only [List.filter_cons, hc, if_false]
      rw [happ]
      rfl

theorem foldl_applyLine_sc (ls : List (List Char)) :
    ∀ cur, (List.foldl applyLine cur ls).success_criteria =
      match lastFieldVal .sc mSC ls with
      | some v => some v
      | none => cur.success_criteria := by
  induction ls with
  | nil => intro cur; rfl
  | cons l ls ih =>
    intro cur
    rw [List.foldl_cons, ih]
    cases hc : Decidable.decide (classifyLine l = LineKind.sc) with
    | true =>
      have hcl : classifyLine l = LineKind.sc := by simpa using hc
      have happ : (applyLine cur l).success_criteria = some (extractVal mSC l) := by
        unfold applyLine; rw [hcl]
      unfold lastFieldVal
      simp only [List.filter_cons, hc, if_true]
      rw [getLast?_cons_eq]
      cases hg : (List.filter (fun x => decide (classifyLine x = LineKind.sc)) ls).getLast? with
      | some y => simp [lastFieldVal, hg]
      | none => simp [lastFieldVal, hg, happ]
    | false =>
      have hcl : classifyLine l ≠ LineKind.sc := by simpa using hc
      have happ := applyLine_sc_of_ne cur l hcl
      unfold lastFieldVal
      simp only [List.filter_cons, hc, if_false]
      rw [happ]
      rfl

theorem taskRec_eq {t₁ t₂ : TaskRec}
    (h1 : t₁.name = t₂.name) (h2 : t₁.description = t₂.description)
    (h3 : t₁.expected_output = t₂.expected_output)
    (h4 : t₁.success_criteria = t₂.success_criteria)
    (h5 : t₁.dependencies = t₂.dependencies)
    (h6 : t₁.estimated_complexity = t₂.estimated_complexity) : t₁ = t₂ := by
  cases t₁; cases t₂; simp_all

theorem option_match_id {α : Type} (o : Option α) :
    (match o with | some v => some v | none => none) = o := by
  cases o <;> rfl

theorem applyBlock_eq_blockRec (hdr : List Char) (body : List (List Char)) :
    List.foldl applyLine (freshRec (pyStrip hdr)) body = blockRec hdr body := by
  apply taskRec_eq
  · rw [foldl_applyLine_name]
    rfl
  · rw [foldl_applyLine_desc]
    cases h : lastFieldVal .desc mDESC body with
    | none => simp [h, blockRec, freshRec, emptyTask]
    | some v => simp [h, blockRec]
  · rw [foldl_applyLine_eo]
    cases h : lastFieldVal .eo mEO body with
    | none => simp [h, blockRec, freshRec, emptyTask]
    | some v => simp [h, blockRec]
  · rw [foldl_applyLine_sc]
    cases h : lastFieldVal .sc mSC body with
    | none => simp [h, blockRec, freshRec, emptyTask]
    | some v => simp [h, blockRec]
  · rw [foldl_applyLine_deps]
    rfl
  · rw [foldl_applyLine_cx]
    rfl

theorem blockRec_emit (hdr : List Char) (body : List (List Char)) :
    emitCur (blockRec hdr body) = [blockRec hdr body] := by
  unfold emitCur blockRec TaskRec.isEmptyB
  simp

theorem emptyTask_emit : emitCur emptyTask = [] := rfl

theorem dropWhile_head_not {p : List Char → Bool} :
    ∀ (l : List (List Char)) {x : List Char} {xs : List (List Char)},
    l.dropWhile p = x :: xs → p x = false := by
  intro l
  induction l with
  | nil => intro x xs h; simp at h
  | cons c cs ih =>
    intro x xs h
    rw [List.dropWhile_cons] at h
    by_cases hc : p c = true
    · rw [if_pos hc] at h
      exact ih h
    · rw [if_neg hc] at h
      cases h
      simpa using hc

theorem notTN_eq_false {l : List Char} (h : notTN l = false) :
    classifyLine l = LineKind.tn := by
  unfold notTN at h
  simpa using h

theorem foldl_blocks : ∀ (n : Nat) (hdr : List Char) (rest : List (List Char))
    (acc : List TaskRec) (cur : TaskRec),
    (hdr :: rest).length ≤ n → classifyLine hdr = LineKind.tn →
    flushTasks (List.foldl stepLine (acc, cur) (hdr :: rest))
      = acc ++ emitCur cur
          ++ (groupBlocks (hdr :: rest)).map (fun b => blockRec b.1 b.2) := by
  intro n
  induction n with
  | zero => intro hdr rest acc cur hlen; simp at hlen
  | succ n ih =>
    intro hdr rest acc cur hlen htn
    have hsplit : rest.takeWhile notTN ++ rest.dropWhile notTN = rest :=
      List.takeWhile_append_dropWhile notTN rest
    have hbody : ∀ l ∈ rest.takeWhile notTN, classifyLine l ≠ LineKind.tn := by
      intro l hl he
      have := List.mem_takeWhile_imp hl
      rw [notTN, he] at this
      simp at this
    have hfold : List.foldl stepLine (acc, cur) (hdr :: rest)
        = List.foldl stepLine
            (acc ++ emitCur cur, blockRec hdr (rest.takeWhile notTN))
            (rest.dropWhile notTN) := by
      rw [List.foldl_cons, stepLine_of_tn (acc, cur) hdr htn]
      conv_lhs => rw [← hsplit]
      rw [List.foldl_append, foldl_stepLine_nonTN _ _ _ hbody,
        applyBlock_eq_blockRec]
    rw [hfold, groupBlocks]
    cases hd : rest.dropWhile notTN with
    | nil =>
      rw [List.foldl_nil]
      unfold flushTasks
      rw [blockRec_emit]
      simp [groupBlocks]
    | cons h2 r2 =>
      have htn2 : classifyLine h2 = LineKind.tn :=
        notTN_eq_false (dropWhile_head_not rest hd)
      have hlen2 : (h2 :: r2).length ≤ n := by
        have h1 : rest.length ≤ n := by simpa using hlen
        have h2l : (rest.dropWhile notTN).length ≤ rest.length :=
          (List.dropWhile_sublist notTN).length_le
        rw [hd] at h2l
        omega
      rw [ih h2 r2 (acc ++ emitCur cur)
        (blockRec hdr (rest.takeWhile notTN)) hlen2 htn2]
      rw [blockRec_emit]
      simp

theorem groupBlocks_length : ∀ (n : Nat) (ls : List (List Char)),
    ls.length ≤ n →
    (ls = [] ∨ ∃ hdr rest, ls = hdr :: rest ∧ classifyLine hdr = LineKind.tn) →
    (groupBlocks ls).length
      = ls.countP (fun l => decide (classifyLine l = LineKind.tn)) := by
  intro n
  induction n with
  | zero =>
    intro ls hlen hls
    have : ls = [] := by cases ls with
      | nil => rfl
      | cons a l => simp at hlen
    subst this
    simp [groupBlocks]
  | succ n ih =>
    intro ls hlen hls
    cases hls with
    | inl h =>
      subst h
      simp [groupBlocks]
    | inr h =>
      obtain ⟨hdr, rest, hcons, htn⟩ := h
      subst hcons
      rw [groupBlocks]
      have hsplit : rest.takeWhile notTN ++ rest.dropWhile notTN = rest :=
        List.takeWhile_append_dropWhile notTN rest
      have hbody0 : (rest.takeWhile notTN).countP
          (fun l => decide (classifyLine l = LineKind.tn)) = 0 := by
        rw [List.countP_eq_zero]
        intro a ha
        have := List.mem_takeWhile_imp ha
        rw [notTN] at this
        simpa using this
      have hrec : (groupBlocks (rest.dropWhile notTN)).length
          = (rest.dropWhile notTN).countP
              (fun l => decide (classifyLine l = LineKind.tn)) := by
        apply ih
        · have h2l : (rest.dropWhile notTN).length ≤ rest.length :=
            (List.dropWhile_sublist notTN).length_le
          have : rest.length ≤ n := by simpa using hlen
          omega
        · cases hd : rest.dropWhile notTN with
          | nil => exact Or.inl rfl
          | cons h2 r2 =>
            exact Or.inr ⟨h2, r2, rfl, notTN_eq_false (dropWhile_head_not rest hd)⟩
      rw [List.length_cons, hrec]
      rw [List.countP_cons]
      conv_rhs => rw [← hsplit]
      rw [List.countP_append, hbody0]
      simp [htn]

/-! ## Claim C2 -/

/-- C2: corrected form. For text whose lines before the first `TASK NAME:`
line carry no field marker, the fallback parser returns exactly one record
per `TASK NAME:` line: the blocks decomposition, where each record's name is
read from its header line and its fields from the last matching marker line
strictly between its header and the next one. The lead-in condition is
necessary (a field-marker line before the first `TASK NAME:` line opens an
extra record — see the counterexample), and records correspond to marker
*lines*, not marker occurrences. -/
theorem C2_line_blocks (text : List Char) (N : Nat)
    (hlead : ∀ l ∈ (splitNl text).takeWhile notTN, classifyLine l = LineKind.other)
    (hN : (splitNl text).countP (fun l => decide (classifyLine l = LineKind.tn)) = N)
    (hpos : 1 ≤ N) :
    parse_text_tasks text
      = (groupBlocks ((splitNl text).dropWhile notTN)).map (fun b => blockRec b.1 b.2)
    ∧ (parse_text_tasks text).length = N := by
  have hsplit : (splitNl text).takeWhile notTN ++ (splitNl text).dropWhile notTN
      = splitNl text := List.takeWhile_append_dropWhile notTN (splitNl text)
  have hcountD : ((splitNl text).dropWhile notTN).countP
      (fun l => decide (classifyLine l = LineKind.tn)) = N := by
    have h0 : ((splitNl text).takeWhile notTN).countP
        (fun l => decide (classifyLine l = LineKind.tn)) = 0 := by
      rw [List.countP_eq_zero]
      intro a ha
      simp [hlead a ha]
    have hN' := hN
    conv at hN' => rw [← hsplit]
    rw [List.countP_append, h0] at hN'
    simpa using hN'
  have hfold : List.foldl stepLine ([], emptyTask) (splitNl text)
      = List.foldl stepLine ([], emptyTask) ((splitNl text).dropWhile notTN) := by
    conv_lhs => rw [← hsplit]
    rw [List.foldl_append, foldl_stepLine_other _ _ _ hlead]
  cases hd : (splitNl text).dropWhile notTN with
  | nil =>
    rw [hd] at hcountD
    simp at hcountD
    omega
  | cons hdr rest =>
    have htn : classifyLine hdr = LineKind.tn :=
      notTN_eq_false (dropWhile_head_not (splitNl text) hd)
    have hflush : flushTasks (List.foldl stepLine ([], emptyTask) (splitNl text))
        = (groupBlocks ((splitNl text).dropWhile notTN)).map
            (fun b => blockRec b.1 b.2) := by
      rw [hfold, hd]
      rw [foldl_blocks (hdr :: rest).length hdr rest [] emptyTask (le_refl _) htn]
      simp [emptyTask_emit]
    have hne : (groupBlocks ((splitNl text).dropWhile notTN)).map
        (fun b => blockRec b.1 b.2) ≠ [] := by
      rw [hd, groupBlocks]
      simp
    have hp : parse_text_tasks text
        = (groupBlocks ((splitNl text).dropWhile notTN)).map
            (fun b => blockRec b.1 b.2) := by
      unfold parse_text_tasks
      rw [hflush]
      cases hgb : (groupBlocks ((splitNl text).dropWhile notTN)).map
          (fun b => blockRec b.1 b.2) with
      | nil => exact absurd hgb hne
      | cons a l => rfl
    rw [hd] at hp hcountD
    refine ⟨hp, ?_⟩
    rw [hp, List.length_map]
    rw [groupBlocks_length ((hdr :: rest).length) _ (le_refl _)
      (Or.inr ⟨hdr, rest, rfl, htn⟩)]
    exact hcountD

/-- C2 witness: a concrete two-block response parses into exactly the two
block records. -/
theorem C2_line_blocks_witness :
    parse_text_tasks c2WitnessText
      = (groupBlocks ((splitNl c2WitnessText).dropWhile notTN)).map
          (fun b => blockRec b.1 b.2)
    ∧ (parse_text_tasks c2WitnessText).length = 2 :=
  C2_line_blocks c2WitnessText 2 (by decide) (by decide) (by decide)

/-- C2 counterexample: `"DESCRIPTION: x\nTASK NAME: A"` contains exactly one
occurrence of the `TASK NAME:` marker (on exactly one line) and no JSON
array, yet the fallback parser returns two records, because the leading
`DESCRIPTION:` line opens a nameless record that the `TASK NAME:` line then
flushes. -/
theorem C2_line_blocks_cex :
    ((splitNl c2CexText).countP (fun l => decide (containsSub mTN (pyStrip l) = true))) = 1
    ∧ jsonStage c2CexText = none
    ∧ (parse_text_tasks c2CexText).length = 2
    ∧ (parse_text_tasks c2CexText).length ≠ 1 :=
  ⟨by decide, rfl, by decide, by decide⟩

/-! ## Claim C3 -/

/-- C3: corrected form. For text with no valid bracketed JSON array in which
no line carries any of the four markers, the extractor returns exactly the
three fixed fallback records, named "Project Setup", "Core Implementation"
and "Testing and Polish" in that order. Absence of the `TASK NAME:` marker
alone does not suffice: a text with a field-marker line but no `TASK NAME:`
line yields that single field record instead of the three fixed ones — see
the counterexample. -/
theorem C3_fixed_fallback (text : List Char)
    (hjson : jsonStage text = none)
    (hother : ∀ l ∈ splitNl text, classifyLine l = LineKind.other) :
    generate_custom_tasks text = fallbackTasks.map taskRecToJson
    ∧ fallbackTasks.map TaskRec.name
        = [some (("Project Setup").data), some (("Core Implementation").data),
           some (("Testing and Polish").data)]
    ∧ (generate_custom_tasks text).length = 3 := by
  have hfold := foldl_stepLine_other (splitNl text) [] emptyTask hother
  have hpt : parse_text_tasks text = fallbackTasks := by
    unfold parse_text_tasks
    rw [hfold]
    rfl
  have hgen : generate_custom_tasks text = fallbackTasks.map taskRecToJson := by
    simp [generate_custom_tasks, hjson, hpt]
  exact ⟨hgen, rfl, by rw [hgen]; rfl⟩

/-- C3 witness: marker-free, bracket-free text degrades to the fixed three
tasks. -/
theorem C3_fixed_fallback_witness :
    generate_custom_tasks c3WitnessText = fallbackTasks.map taskRecToJson
    ∧ fallbackTasks.map TaskRec.name
        = [some (("Project Setup").data), some (("Core Implementation").data),
           some (("Testing and Polish").data)]
    ∧ (generate_custom_tasks c3WitnessText).length = 3 :=
  C3_fixed_fallback c3WitnessText rfl (by decide)

/-- C3 counterexample: `"DESCRIPTION: hi"` has zero `TASK NAME:` markers and
no JSON array, yet the extractor returns one record (the description-only
dict), not the three fixed fallback records. -/
theorem C3_fixed_fallback_cex :
    ((splitNl c3CexText).countP (fun l => decide (containsSub mTN (pyStrip l) = true))) = 0
    ∧ jsonStage c3CexText = none
    ∧ (generate_custom_tasks c3CexText).length = 1
    ∧ (generate_custom_tasks c3CexText).length ≠ 3 :=
  ⟨by decide, rfl, rfl, by decide⟩

/-! ## Helper lemmas about the runner's result keys -/

theorem digitChar_isDigit {m : Nat} (h : m < 10) :
    (Nat.digitChar m).isDigit = true := by
  interval_cases m <;> decide

theorem digitChar_val {m : Nat} (h : m < 10) :
    (Nat.digitChar m).toNat - 48 = m := by
  interval_cases m <;> decide

theorem decCharsAux_digits : ∀ fuel n, n < fuel →
    ∀ c ∈ decCharsAux fuel n, c.isDigit = true := by
  intro fuel
  induction fuel with
  | zero => intro n h; omega
  | succ f ih =>
    intro n hn c hc
    rw [decCharsAux] at hc
    by_cases h : n < 10
    · rw [if_pos h] at hc
      simp at hc
      subst hc
      exact digitChar_isDigit h
    · rw [if_neg h] at hc
      rcases List.mem_append.mp hc with h1 | h2
      · exact ih (n / 10) (by omega) c h1
      · simp at h2
        subst h2
        exact digitChar_isDigit (Nat.mod_lt _ (by omega))

theorem decChars_digits : ∀ n, ∀ c ∈ decChars n, c.isDigit = true := by
  intro n
  exact decCharsAux_digits (n + 1) n (by omega)

theorem decVal_decCharsAux : ∀ fuel n a, n < fuel →
    List.foldl (fun a c => 10 * a + (c.toNat - 48)) a (decCharsAux fuel n)
      = a * 10 ^ (decCharsAux fuel n).length + n := by
  intro fuel
  induction fuel with
  | zero => intro n a h; omega
  | succ f ih =>
    intro n a hn
    rw [decCharsAux]
    by_cases h : n < 10
    · rw [if_pos h]
      simp [digitChar_val h]
      ring
    · rw [if_neg h]
      rw [List.foldl_append]
      rw [ih (n / 10) a (by omega)]
      simp only [List.foldl_cons, List.foldl_nil, List.length_append,
        List.length_cons, List.length_nil]
      rw [digitChar_val (Nat.mod_lt _ (by omega))]
      have hmod : 10 * (n / 10) + n % 10 = n := by omega
      rw [pow_succ]
      calc 10 * (a * 10 ^ (decCharsAux f (n / 10)).length + n / 10) + n % 10
          = a * (10 ^ (decCharsAux f (n / 10)).length * 10)
            + (10 * (n / 10) + n % 10) := by ring
        _ = a * (10 ^ (decCharsAux f (n / 10)).length * 10) + n := by rw [hmod]

theorem decVal_decChars (n : Nat) : decVal (decChars n) = n := by
  unfold decVal decChars
  rw [decVal_decCharsAux (n + 1) n 0 (by omega)]
  simp

theorem decChars_inj {i j : Nat} (h : decChars i = decChars j) : i = j := by
  have := decVal_decChars i
  rw [h, decVal_decChars j] at this
  omega

theorem digits_sep : ∀ (a : List Char), ∀ {b t s : List Char},
    (∀ c ∈ a, c.isDigit = true) → (∀ c ∈ b, c.isDigit = true) →
    a ++ '_' :: t = b ++ '_' :: s → a = b ∧ t = s := by
  intro a
  induction a with
  | nil =>
    intro b t s _ hb h
    cases b with
    | nil => simpa using h
    | cons x b' =>
      simp only [List.nil_append, List.cons_append, List.cons.injEq] at h
      have hx : x.isDigit = true := hb x (by simp)
      rw [← h.1] at hx
      simp at hx
  | cons x a' ih =>
    intro b t s ha hb h
    cases b with
    | nil =>
      simp only [List.cons_append, List.nil_append, List.cons.injEq] at h
      have hx : x.isDigit = true := ha x (by simp)
      rw [h.1] at hx
      simp at hx
    | cons y b' =>
      simp only [List.cons_append, List.cons.injEq] at h
      obtain ⟨hxy, hrest⟩ := h
      obtain ⟨heq, hts⟩ := ih (fun c hc => ha c (by simp [hc]))
        (fun c hc => hb c (by simp [hc])) hrest
      exact ⟨by rw [hxy, heq], hts⟩

theorem taskKey_inj {i j : Nat} {t s : List Char}
    (h : taskKey i t = taskKey j s) : i = j ∧ t = s := by
  unfold taskKey at h
  have h2 : decChars i ++ '_' :: t = decChars j ++ '_' :: s :=
    List.append_cancel_left h
  obtain ⟨hd, hts⟩ := digits_sep (decChars i)
    (decChars_digits i) (decChars_digits j) h2
  exact ⟨decChars_inj hd, hts⟩

/-- The key of the entry `runStep` produces always has the `taskKey i` shape. -/
theorem runStep_key_shape (delay k i : Nat) (cfg : TaskRec) (out : ExecOutcome) :
    ∃ tail, (runStep delay k i cfg out).1.1 = taskKey i tail := by
  cases out with
  | ok payload timeStr ts => exact ⟨slugify (cfg.name.getD ("unnamed".data)), rfl⟩
  | err msg ts => exact ⟨("failed".data), rfl⟩

/-- The record `runStep` produces carries the task's own config. -/
theorem runStep_cfg (delay k i : Nat) (cfg : TaskRec) (out : ExecOutcome) :
    (runStep delay k i cfg out).1.2.cfg = cfg := by
  cases out <;> rfl

theorem dictSet_eq_append (d : List (List Char × RunEntry)) (k : List Char)
    (v : RunEntry) (h : ∀ p ∈ d, p.1 ≠ k) :
    dictSet d k v = d ++ [(k, v)] := by
  induction d with
  | nil => rfl
  | cons p rest ih =>
    unfold dictSet
    rw [if_neg (h p (by simp))]
    rw [ih (fun q hq => h q (by simp [hq]))]
    rfl

/-- Master lemma: starting from a dict whose keys all carry indices below
`i`, the loop appends exactly one entry per task and produces the pure
sleep trace. -/
theorem runLoopAux_spec (delay k : Nat) (exec : Nat → ExecOutcome) :
    ∀ (tasks : List TaskRec) (i : Nat) (d : List (List Char × RunEntry)),
    (∀ p ∈ d, ∃ j tail, j < i ∧ p.1 = taskKey j tail) →
    runLoopAux delay k exec i tasks d
      = (d ++ pureEntries delay k exec i tasks, pureSleeps delay k exec i tasks) := by
  intro tasks
  induction tasks with
  | nil => intro i d _; simp [runLoopAux, pureEntries, pureSleeps]
  | cons cfg rest ih =>
    intro i d hd
    obtain ⟨tail, htail⟩ := runStep_key_shape delay k i cfg (exec i)
    have hnotin : ∀ p ∈ d, p.1 ≠ (runStep delay k i cfg (exec i)).1.1 := by
      intro p hp he
      obtain ⟨j, tl, hj, hkey⟩ := hd p hp
      rw [hkey, htail] at he
      have := (taskKey_inj he).1
      omega
    unfold runLoopAux
    dsimp only
    rw [dictSet_eq_append d _ _ hnotin]
    rw [ih (i + 1) (d ++ [(runStep delay k i cfg (exec i)).1])
      (by
        intro p hp
        rcases List.mem_append.mp hp with h1 | h2
        · obtain ⟨j, tl, hj, hkey⟩ := hd p h1
          exact ⟨j, tl, by omega, hkey⟩
        · simp at h2
          exact ⟨i, tail, by omega, by rw [h2, htail]⟩)]
    simp [pureEntries, pureSleeps]

/-- The loop's results dict is exactly the pure entry list. -/
theorem run_crew_entries (delay : Nat) (tasks : List TaskRec)
    (exec : Nat → ExecOutcome) :
    (run_intelligent_crew delay tasks exec).1
      = pureEntries delay tasks.length exec 1 tasks := by
  unfold run_intelligent_crew
  rw [runLoopAux_spec delay tasks.length exec tasks 1 [] (by intro p hp; simp at hp)]
  simp

/-- The loop's sleep trace is exactly the pure sleep trace. -/
theorem run_crew_sleeps (delay : Nat) (tasks : List TaskRec)
    (exec : Nat → ExecOutcome) :
    (run_intelligent_crew delay tasks exec).2
      = pureSleeps delay tasks.length exec 1 tasks := by
  unfold run_intelligent_crew
  rw [runLoopAux_spec delay tasks.length exec tasks 1 [] (by intro p hp; simp at hp)]

theorem pureEntries_map_cfg (delay k : Nat) (exec : Nat → ExecOutcome) :
    ∀ (tasks : List TaskRec) (i : Nat),
    (pureEntries delay k exec i tasks).map (fun p => p.2.cfg) = tasks := by
  intro tasks
  induction tasks with
  | nil => intro i; rfl
  | cons cfg rest ih =>
    intro i
    simp only [pureEntries, List.map_cons, runStep_cfg]
    rw [ih (i + 1)]

theorem pureEntries_length (delay k : Nat) (exec : Nat → ExecOutcome)
    (tasks : List TaskRec) (i : Nat) :
    (pureEntries delay k exec i tasks).length = tasks.length := by
  have := pureEntries_map_cfg delay k exec tasks i
  have h := congrArg List.length this
  rw [List.length_map] at h
  exact h

theorem runStep_extra_count (delay k i : Nat) (cfg : TaskRec) (out : ExecOutcome) :
    ((runStep delay k i cfg out).2.countP isExtraB)
      = (if isRLB out then 1 else 0) := by
  cases out with
  | ok payload timeStr ts =>
    by_cases h : i < k <;> simp [runStep, h, isRLB, List.countP_cons, isExtraB]
  | err msg ts =>
    by_cases h : containsSub rlMarker msg = true
    · simp [runStep, h, isRLB, List.countP_cons, isExtraB]
    · simp at h
      simp [runStep, h, isRLB, List.countP_cons]

theorem pureSleeps_extra_count (delay k : Nat) (exec : Nat → ExecOutcome) :
    ∀ (tasks : List TaskRec) (i : Nat),
    (pureSleeps delay k exec i tasks).countP isExtraB
      = (List.range' i tasks.length).countP (fun j => isRLB (exec j)) := by
  intro tasks
  induction tasks with
  | nil => intro i; rfl
  | cons cfg rest ih =>
    intro i
    simp only [pureSleeps, List.length_cons, List.countP_append]
    rw [List.range'_succ, List.countP_cons, runStep_extra_count, ih (i + 1)]
    by_cases h : isRLB (exec i) = true <;> simp [h] <;> omega

theorem pureEntries_keys_shape (delay k : Nat) (exec : Nat → ExecOutcome) :
    ∀ (tasks : List TaskRec) (i : Nat), ∀ p ∈ pureEntries delay k exec i tasks,
    ∃ j tail, i ≤ j ∧ p.1 = taskKey j tail := by
  intro tasks
  induction tasks with
  | nil => intro i p hp; simp [pureEntries] at hp
  | cons cfg rest ih =>
    intro i p hp
    simp only [pureEntries, List.mem_cons] at hp
    rcases hp with h1 | h2
    · obtain ⟨tail, htail⟩ := runStep_key_shape delay k i cfg (exec i)
      exact ⟨i, tail, le_refl i, by rw [h1, htail]⟩
    · obtain ⟨j, tail, hj, hkey⟩ := ih (i + 1) p h2
      exact ⟨j, tail, by omega, hkey⟩

theorem pureEntries_keys_nodup (delay k : Nat) (exec : Nat → ExecOutcome) :
    ∀ (tasks : List TaskRec) (i : Nat),
    ((pureEntries delay k exec i tasks).map Prod.fst).Nodup := by
  intro tasks
  induction tasks with
  | nil => intro i; simp [pureEntries]
  | cons cfg rest ih =>
    intro i
    simp only [pureEntries, List.map_cons, List.nodup_cons]
    refine ⟨?_, ih (i + 1)⟩
    intro hmem
    obtain ⟨p, hp, hkey⟩ := List.mem_map.mp hmem
    obtain ⟨j, tail, hj, hkey2⟩ := pureEntries_keys_shape delay k exec rest (i + 1) p hp
    obtain ⟨tail0, htail0⟩ := runStep_key_shape delay k i cfg (exec i)
    rw [hkey2, htail0] at hkey
    have := (taskKey_inj hkey).1
    omega

theorem pureEntries_getElem? (delay k : Nat) (exec : Nat → ExecOutcome) :
    ∀ (tasks : List TaskRec) (i j : Nat) (cfg : TaskRec),
    tasks[j]? = some cfg →
    (pureEntries delay k exec i tasks)[j]?
      = some ((runStep delay k (i + j) cfg (exec (i + j))).1) := by
  intro tasks
  induction tasks with
  | nil => intro i j cfg h; simp at h
  | cons c rest ih =>
    intro i j cfg h
    have hcons : pureEntries delay k exec i (c :: rest)
        = (runStep delay k i c (exec i)).1
            :: pureEntries delay k exec (i + 1) rest := rfl
    cases j with
    | zero =>
      simp at h
      subst h
      rw [hcons]
      simp
    | succ j' =>
      simp only [List.getElem?_cons_succ] at h
      rw [hcons, List.getElem?_cons_succ, ih (i + 1) j' cfg h]
      have : i + 1 + j' = i + (j' + 1) := by omega
      rw [this]

theorem pureEntries_any_succ (delay k : Nat) (exec : Nat → ExecOutcome) :
    ∀ (tasks : List TaskRec) (i : Nat),
    (pureEntries delay k exec i tasks).any isSuccEntryB
      = (List.range' i tasks.length).any (fun j => isOkB (exec j)) := by
  intro tasks
  induction tasks with
  | nil => intro i; rfl
  | cons cfg rest ih =>
    intro i
    simp only [pureEntries, List.length_cons, List.any_cons]
    rw [List.range'_succ, List.any_cons, ih (i + 1)]
    have : isSuccEntryB (runStep delay k i cfg (exec i)).1 = isOkB (exec i) := by
      cases exec i <;> rfl
    rw [this]

/-! ## Claim C5 -/

/-- C5: the execution loop records exactly one `ExecutionRecord` per task, in
task order (each record holding its own task's config, so every task is
attempted regardless of earlier failures), and sleeps the extra 120-second
cooldown exactly once per failure whose error text contains the rate-limit
marker. -/
theorem C5_loop_resilience (delay : Nat) (tasks : List TaskRec)
    (exec : Nat → ExecOutcome) :
    ((run_intelligent_crew delay tasks exec).1.map (fun p => p.2.cfg) = tasks)
    ∧ ((run_intelligent_crew delay tasks exec).1.length = tasks.length)
    ∧ ((run_intelligent_crew delay tasks exec).2.countP isExtraB
        = (List.range' 1 tasks.length).countP (fun i => isRLB (exec i))) := by
  rw [run_crew_entries, run_crew_sleeps]
  exact ⟨pureEntries_map_cfg delay tasks.length exec tasks 1,
    pureEntries_length delay tasks.length exec tasks 1,
    pureSleeps_extra_count delay tasks.length exec tasks 1⟩

/-! ## Claim C8 -/

/-- C8: corrected form. The loop's results dict is the pure append-only entry
list: its keys are pairwise distinct, so each record is created exactly once
and never overwritten; the record of the `j`-th task (0-based `j`) is keyed
`task_{j+1}_{slug}` when it succeeds but `task_{j+1}_failed` — with no trace
of the slugified name — when it fails, and holds either the result payload,
duration and timestamp or the error message and timestamp. -/
theorem C8_record_keys (delay : Nat) (tasks : List TaskRec)
    (exec : Nat → ExecOutcome) :
    ((run_intelligent_crew delay tasks exec).1
        = pureEntries delay tasks.length exec 1 tasks)
    ∧ (((run_intelligent_crew delay tasks exec).1.map Prod.fst).Nodup)
    ∧ (∀ (j : Nat) (cfg : TaskRec), tasks[j]? = some cfg →
        (run_intelligent_crew delay tasks exec).1[j]?
          = some (match exec (j + 1) with
              | .ok payload timeStr ts =>
                (succKey (j + 1) cfg,
                 RunEntry.success cfg payload timeStr (estimated_tokens cfg) ts)
              | .err msg ts =>
                (failKey (j + 1), RunEntry.failure cfg msg ts))) := by
  refine ⟨run_crew_entries delay tasks exec, ?_, ?_⟩
  · rw [run_crew_entries]
    exact pureEntries_keys_nodup delay tasks.length exec tasks 1
  · intro j cfg hj
    rw [run_crew_entries]
    rw [pureEntries_getElem? delay tasks.length exec tasks 1 j cfg hj]
    have h1j : 1 + j = j + 1 := by omega
    rw [h1j]
    cases exec (j + 1) <;> rfl

/-- C8 witness: a succeeding task named "Build App" at index 1 is stored
under `task_1_build_app` with its payload, duration, token estimate and
timestamp. -/
theorem C8_record_keys_witness :
    (run_intelligent_crew 65 [c8Cfg] c8OkExec).1[0]?
      = some (succKey 1 c8Cfg,
          RunEntry.success c8Cfg ("result text".data) ("1.0".data)
            (estimated_tokens c8Cfg) ("2026-01-01T00:00:00".data)) :=
  (C8_record_keys 65 [c8Cfg] c8OkExec).2.2 0 c8Cfg rfl

/-- C8 counterexample: when the task named "Build App" fails, its record is
keyed `task_1_failed`: the slugified name `build_app` appears nowhere in the
key, refuting "keyed by the task's 1-based index together with the task's
slugified name" for failure records. -/
theorem C8_record_keys_cex :
    ((run_intelligent_crew 65 [c8Cfg] c8FailExec).1.map Prod.fst
        = [("task_1_failed").data])
    ∧ slugify (("Build App").data) = ("build_app").data
    ∧ containsSub (slugify (("Build App").data)) (("task_1_failed").data) = false
    ∧ (("task_1_failed").data ≠ taskKey 1 (slugify (c8Cfg.name.getD ("unnamed".data)))) :=
  ⟨rfl, rfl, by decide, by decide⟩

/-! ## Claim C10 -/

/-- C10: on a failed task the loop's sleeps are exactly the 120-second extra
cooldown when `str(e)` contains the case-sensitive substring
`"RateLimitError"` and nothing at all otherwise — in particular the base
inter-task delay is never slept on failure — and the lowercase message
`"rate limit exceeded"` does not contain the marker. -/
theorem C10_rate_limit_marker (delay k i : Nat) (cfg : TaskRec)
    (msg ts : List Char) :
    ((runStep delay k i cfg (.err msg ts)).2
        = if containsSub rlMarker msg then [Sleep.extra 120] else [])
    ∧ ((runStep delay k i cfg (.err msg ts)).2.countP (fun s => !(isExtraB s)) = 0)
    ∧ containsSub rlMarker (("rate limit exceeded").data) = false := by
  refine ⟨rfl, ?_, by decide⟩
  by_cases h : containsSub rlMarker msg = true
  · simp [runStep, h, isExtraB]
  · simp at h
    simp [runStep, h]

/-! ## Helper lemmas about result compilation -/

theorem taskKey_head (j : Nat) (tail : List Char) :
    (taskKey j tail).head? = some 't' := rfl

theorem taskKey_ne_combinedKey (j : Nat) (tail : List Char) :
    taskKey j tail ≠ combinedKey := by
  intro h
  have h2 := taskKey_head j tail
  rw [h] at h2
  exact absurd h2 (by decide)

theorem taskKey_ne_analysisKey (j : Nat) (tail : List Char) :
    taskKey j tail ≠ analysisKey := by
  intro h
  have h2 := taskKey_head j tail
  rw [h] at h2
  exact absurd h2 (by decide)

theorem dictSetR_eq_append (d : List (List Char × ResVal)) (k : List Char)
    (v : ResVal) (h : ∀ p ∈ d, p.1 ≠ k) :
    dictSetR d k v = d ++ [(k, v)] := by
  induction d with
  | nil => rfl
  | cons p rest ih =>
    unfold dictSetR
    rw [if_neg (h p (by simp))]
    rw [ih (fun q hq => h q (by simp [hq]))]
    rfl

theorem dictLookup_cons_ne (p : List Char × ResVal)
    (d : List (List Char × ResVal)) (k : List Char) (h : p.1 ≠ k) :
    dictLookup k (p :: d) = dictLookup k d := by
  cases p with
  | mk k' v =>
    conv_lhs => rw [dictLookup]
    exact if_neg h

theorem dictLookup_append_right (d rest : List (List Char × ResVal))
    (k : List Char) (h : ∀ p ∈ d, p.1 ≠ k) :
    dictLookup k (d ++ rest) = dictLookup k rest := by
  induction d with
  | nil => rfl
  | cons p d' ih =>
    show dictLookup k (p :: (d' ++ rest)) = _
    rw [dictLookup_cons_ne p (d' ++ rest) k (h p (by simp))]
    exact ih (fun q hq => h q (by simp [hq]))

theorem dictLookup_eq_none (d : List (List Char × ResVal)) (k : List Char)
    (h : ∀ p ∈ d, p.1 ≠ k) : dictLookup k d = none := by
  have := dictLookup_append_right d [] k h
  simpa using this

/-! ## Claim C6 -/

/-- C6: the `'combined'` entry is present in the final results exactly when
at least one task succeeded, and when present it is the synthesized report:
the header, the analysis text (with its default), one status section per
`ExecutionRecord` in task order — duration and result text for successes,
error text for failures — and the previously rendered guide, joined by
newlines. The second conjunct shows the `'combined'`/`'analysis'` skip in
the section loop drops nothing, because every record key starts with
`task_`. -/
theorem C6_combined_report (delay : Nat) (tasks : List TaskRec)
    (exec : Nat → ExecOutcome) (ar : AnalysisBundle) (now : List Char) :
    (dictLookup combinedKey
        (finalize_results (run_intelligent_crew delay tasks exec).1 ar now)
      = (if (List.range' 1 tasks.length).any (fun i => isOkB (exec i))
         then some (ResVal.text (combine_intelligent_results
                (run_intelligent_crew delay tasks exec).1 ar now))
         else none))
    ∧ (combine_intelligent_results (run_intelligent_crew delay tasks exec).1 ar now
        = joinNl (combineHdrLines ar now
            ++ ((run_intelligent_crew delay tasks exec).1.flatMap
                  (fun p => entryLines p.1 p.2))
            ++ combineFtrLines ar)) := by
  have hent := run_crew_entries delay tasks exec
  have hkeys : ∀ p ∈ (run_intelligent_crew delay tasks exec).1,
      p.1 ≠ combinedKey ∧ p.1 ≠ analysisKey := by
    intro p hp
    rw [hent] at hp
    obtain ⟨j, tail, _, hkey⟩ :=
      pureEntries_keys_shape delay tasks.length exec tasks 1 p hp
    rw [hkey]
    exact ⟨taskKey_ne_combinedKey j tail, taskKey_ne_analysisKey j tail⟩
  have hany : (run_intelligent_crew delay tasks exec).1.any isSuccEntryB
      = (List.range' 1 tasks.length).any (fun j => isOkB (exec j)) := by
    rw [hent]
    exact pureEntries_any_succ delay tasks.length exec tasks 1
  constructor
  · unfold finalize_results
    dsimp only
    by_cases hs : (List.range' 1 tasks.length).any (fun i => isOkB (exec i)) = true
    · rw [if_pos (by rw [hany]; exact hs), if_pos hs]
      have hbase : ∀ p ∈ (run_intelligent_crew delay tasks exec).1.map
          (fun p => (p.1, ResVal.record p.2)), p.1 ≠ combinedKey ∧ p.1 ≠ analysisKey := by
        intro p hp
        obtain ⟨q, hq, hpq⟩ := List.mem_map.mp hp
        rw [← hpq]
        exact hkeys q hq
      rw [dictSetR_eq_append _ combinedKey _ (fun p hp => (hbase p hp).1)]
      rw [dictSetR_eq_append _ analysisKey _ (by
        intro p hp
        rcases List.mem_append.mp hp with h1 | h2
        · exact (hbase p h1).2
        · simp at h2
          rw [h2]
          show combinedKey ≠ analysisKey
          decide)]
      rw [List.append_assoc]
      rw [dictLookup_append_right _ _ _ (fun p hp => (hbase p hp).1)]
      rfl
    · rw [if_neg (by rw [hany]; exact hs), if_neg hs]
      apply dictLookup_eq_none
      intro p hp
      obtain ⟨q, hq, hpq⟩ := List.mem_map.mp hp
      rw [← hpq]
      exact (hkeys q hq).1
  · unfold combine_intelligent_results
    have hfilter : (run_intelligent_crew delay tasks exec).1.filter
        (fun p => !(decide (p.1 = combinedKey ∨ p.1 = analysisKey)))
        = (run_intelligent_crew delay tasks exec).1 := by
      apply List.filter_eq_self.mpr
      intro a ha
      have := hkeys a ha
      simp [this.1, this.2]
    rw [hfilter]

/-! ## Claim C7 -/

theorem sections_occursIn : ∀ (tasks : List TaskRec) (i j : Nat) (t : TaskRec),
    tasks[j]? = some t →
    ∃ a b, sectionsFrom i tasks = a ++ taskSection (i + j) t ++ b := by
  intro tasks
  induction tasks with
  | nil => intro i j t h; simp at h
  | cons c rest ih =>
    intro i j t h
    cases j with
    | zero =>
      simp at h
      subst h
      exact ⟨[], sectionsFrom (i + 1) rest, by simp [sectionsFrom]⟩
    | succ j' =>
      simp only [List.getElem?_cons_succ] at h
      obtain ⟨a, b, he⟩ := ih (i + 1) j' t h
      refine ⟨taskSection i c ++ a, b, ?_⟩
      show taskSection i c ++ sectionsFrom (i + 1) rest = _
      rw [he]
      have hidx : i + 1 + j' = i + (j' + 1) := by omega
      rw [hidx]
      simp [List.append_assoc]

/-- C7: `create_project_guide` renders one section per `TaskSpec` (the
section of the `j`-th task occurs verbatim in the guide), each section
listing name, description, expected output, success criteria, dependencies
and complexity in that order with the documented placeholder defaults; in
particular a task with only `name` and `description` populated renders
exactly "No output specified", "No criteria specified", "None specified"
and "Unknown", in that order. -/
theorem C7_guide_sections (ar : AnalysisResult) (tasks : List TaskRec) :
    (∀ (j : Nat) (t : TaskRec), tasks[j]? = some t →
        occursIn (taskSection (j + 1) t) (create_project_guide ar tasks))
    ∧ (∀ (i : Nat) (nm ds : List Char),
        taskSection i { emptyTask with name := some nm, description := some ds }
          = ("### Task ".data) ++ decChars i ++ (": ".data) ++ nm
            ++ ("\n\n**Description:** ".data) ++ ds
            ++ ("\n\n**Expected Output:** ".data) ++ ("No output specified".data)
            ++ ("\n\n**Success Criteria:** ".data) ++ ("No criteria specified".data)
            ++ ("\n\n**Dependencies:** ".data) ++ ("None specified".data)
            ++ ("\n\n**Complexity:** ".data) ++ ("Unknown".data)
            ++ ("\n\n---\n\n".data)) := by
  constructor
  · intro j t hj
    obtain ⟨a, b, he⟩ := sections_occursIn tasks 1 j t hj
    have hidx : 1 + j = j + 1 := by omega
    rw [hidx] at he
    refine ⟨guideHeader ar tasks.length ++ a, b ++ guideFooter, ?_⟩
    unfold create_project_guide
    rw [he]
    simp [List.append_assoc]
  · intro i nm ds
    rfl

/-- C7 witness: the name-and-description-only task renders the four
placeholders, and its section occurs verbatim in the rendered guide. -/
theorem C7_guide_sections_witness :
    occursIn (taskSection 1 c7Task) (create_project_guide c7Ar [c7Task]) :=
  (C7_guide_sections c7Ar [c7Task]).1 0 c7Task rfl
